import Mathlib

/-!
Verification model of RADAR's perturbation-and-recovery transform engine
(`radar/data/perturb.py`, `radar/data/transform_spec.py`) together with the
legacy-shape normalization used by the task-instance loader
(`radar/utils.py`, `radar/data/datamodel.py`).

Modeling conventions:
* A table is its header list plus its rows of cells; a cell is `Option String`
  (`none` models pandas' NaN).  This matches `DataTable` (headers + string
  rows) and the RangeIndex DataFrames `DataTable.to_df` produces, which are
  the inputs the engine receives.
* CSV lines (`df.to_csv(index=False).strip().splitlines()`) are modeled as
  their field lists.  For tables whose headers and cells are free of the CSV
  metacharacters (comma, quote, newline) and of the whitespace trimmed by
  `.strip()`, this representation is bijective with the rendered line, so
  difflib's line equality and `read_csv`'s field recovery are preserved.
* difflib's `SequenceMatcher` (with `isjunk=None`) is embedded in full:
  the `b2j` index with the autojunk popularity heuristic, the
  `find_longest_match` dynamic program with its extension loops, the block
  queue of `get_matching_blocks` (with fuel; the windows shrink strictly),
  adjacent-block merging, and `get_opcodes`.
* Pydantic constructor calls are modeled as keyword-argument lists consumed
  by field name, with extra keywords ignored (pydantic v2 default
  `extra='ignore'`) and declared defaults applied otherwise.
-/

namespace Radar

/-- Cell of a table: `none` models pandas' NaN/missing marker, `some s` a string
cell (cells are pre-stringified in this system). -/
abbrev Cell := Option String

/-- Table: ordered headers plus rows of cells, positionally aligned.  Models a
pandas DataFrame carrying a RangeIndex, as produced by `DataTable.to_df`. -/
structure Table where
  headers : List String
  rows : List (List Cell)
deriving DecidableEq

/-- Rendering of one cell into a CSV field by `DataFrame.to_csv` (missing values
render as the empty field, `na_rep=""`). -/
def renderCell (c : Cell) : String := c.getD ""

/-- Lines of `df.to_csv(index=False).strip().splitlines()`: the header line
first, then one line per row, each line represented by its field list. -/
def csvLines (t : Table) : List (List String) :=
  t.headers :: t.rows.map (fun row => row.map renderCell)

/-- Default `na_values` of `pandas.read_csv`: every field whose text is one of
these parses as missing (NaN), even under `dtype=str`. -/
def naValues : List String :=
  ["", "#N/A", "#N/A N/A", "#NA", "-1.#IND", "-1.#QNAN", "-NaN", "-nan",
   "1.#IND", "1.#QNAN", "<NA>", "N/A", "NA", "NULL", "NaN", "None",
   "n/a", "nan", "null"]

/-- Parse one CSV field the way `pd.read_csv(..., dtype=str)` does: a default
na-marker becomes NaN, anything else stays a string. -/
def parseCell (s : String) : Cell := if s ∈ naValues then none else some s

/-- Value of column `col` in a one-row table parsed back from a CSV line
(`row[col]` after `pd.read_csv(header + line, dtype=str)`); a column lookup past
the end of a short line reads as NaN (read_csv pads missing trailing fields). -/
def rowVal (columns fields : List String) (col : String) : Cell :=
  match columns.indexOf? col with
  | some k =>
    match fields.get? k with
    | some s => parseCell s
    | none => none
  | none => none

/-- Cell of a table at row index `r` and column name `c` (first occurrence of
the header), `none` when the position does not exist. -/
def lookupCell (t : Table) (r : Nat) (c : String) : Cell :=
  match t.rows.get? r, t.headers.indexOf? c with
  | some row, some k => (row.get? k).getD none
  | _, _ => none

/-- OverwriteCell (pydantic model in perturb.py).  The `new_value` union
`str | float | int | bool | None` is modeled by the legs the engine produces
and the tables store: a string, or null (`none`). -/
structure OverwriteCell where
  row : Int
  col : String
  new_value : Cell
deriving DecidableEq

/-- TableDeltaSpec (pydantic model in perturb.py); both fields default to `[]`. -/
structure TableDeltaSpec where
  drop_rows : List Int := []
  overwrite_cells : List OverwriteCell := []
deriving DecidableEq

/-- Keyword-argument value for the pydantic `TableDeltaSpec` constructor. -/
inductive SpecKwarg where
  | rows (l : List Int)
  | cells (l : List OverwriteCell)
deriving DecidableEq

/-- Pydantic constructor call `TableDeltaSpec(**kwargs)`: each declared field is
taken from the keyword of the same name; extra keywords are ignored (pydantic
v2 default `extra='ignore'`); absent fields take their declared defaults.
A value of the wrong shape under a field's keyword would be a pydantic
validation error and is unreachable at the modeled call sites; it defaults. -/
def tableDeltaSpecOfKwargs (kwargs : List (String × SpecKwarg)) : TableDeltaSpec where
  drop_rows :=
    match kwargs.lookup "drop_rows" with
    | some (.rows l) => l
    | _ => []
  overwrite_cells :=
    match kwargs.lookup "overwrite_cells" with
    | some (.cells l) => l
    | _ => []

/-- Single cell assignment at a named column (`df.loc[r, col] = value` when the
column exists): the addressed cell of the addressed row is replaced. -/
def setAtCol (headers : List String) (row : List Cell) (col : String) (v : Cell) : List Cell :=
  match headers.indexOf? col with
  | some k => row.set k v
  | none => row

/-- `df_recovered.loc[r, col] = value` on a RangeIndex DataFrame, for a row
label `r` that the applier has checked against `len(df)`: if `col` is an
existing column the addressed cell is set; otherwise pandas
setting-with-enlargement appends a new column holding NaN everywhere except the
addressed row (no error is raised).  Model scope: a negative row label, which
pandas would append as a new labeled row, is outside the model (the engine only
produces non-negative row indices) and is left as the identity. -/
def locSet (t : Table) (r : Int) (col : String) (v : Cell) : Table :=
  if 0 ≤ r then
    if col ∈ t.headers then
      { t with rows := t.rows.set r.toNat (setAtCol t.headers (t.rows.getD r.toNat []) col v) }
    else
      { headers := t.headers ++ [col],
        rows := (t.rows.map (fun row => row ++ [none])).set r.toNat
          (t.rows.getD r.toNat [] ++ [v]) }
  else t

/-- Python slice `xs[:d]` on a list of length `m` for an `int` `d` (negative
indices count from the end, with clamping). -/
def sliceTo (xs : List (List Cell)) (d : Int) : List (List Cell) :=
  if 0 ≤ d then xs.take d.toNat else xs.take (xs.length - (-d).toNat)

/-- Python slice `xs[s:]` for an `int` `s`. -/
def sliceFrom (xs : List (List Cell)) (s : Int) : List (List Cell) :=
  if 0 ≤ s then xs.drop s.toNat else xs.drop (xs.length - (-s).toNat)

/-- `pd.concat([df.iloc[:d], df.iloc[d+1:]]).reset_index(drop=True)`: remove the
row at position `d` and renumber. -/
def deleteRow (t : Table) (d : Int) : Table :=
  { t with rows := sliceTo t.rows d ++ sliceFrom t.rows (d + 1) }

/-- `sorted(spec.drop_rows, reverse=True)`: the delete indices in descending
order. -/
def sortDescInt (l : List Int) : List Int :=
  List.insertionSort (fun a b => b ≤ a) l

/-- Single overwrite step of `apply_transform_spec`, guarded by
`overwrite_op.row < len(df_recovered)`. -/
def owStep (acc : Table) (op : OverwriteCell) : Table :=
  if op.row < (acc.rows.length : Int) then locSet acc op.row op.col op.new_value else acc

/-- Single delete step of `apply_transform_spec`, guarded by
`delete_op < len(df_recovered)`. -/
def dropStep (acc : Table) (d : Int) : Table :=
  if d < (acc.rows.length : Int) then deleteRow acc d else acc

/-- apply_transform_spec (perturb.py): work on a copy (value semantics), apply
every in-range overwrite, then apply the deletions sorted descending, skipping
indices at or past the current row count. -/
def apply_transform_spec (df : Table) (spec : TableDeltaSpec) : Table :=
  let df_recovered := spec.overwrite_cells.foldl owStep df
  (sortDescInt spec.drop_rows).foldl dropStep df_recovered

section SequenceMatcher

variable {α : Type} [DecidableEq α]

/-- Popularity test of difflib's autojunk heuristic: with `isjunk=None` and
`len(b) >= 200`, elements occurring more than `len(b) // 100 + 1` times are
dropped from `b2j` (they are recorded as popular, not as junk, so the
extension loops of `find_longest_match` still see them). -/
def isPopular (b : List α) (x : α) : Bool :=
  decide (200 ≤ b.length) && decide (b.length / 100 + 1 < b.count x)

/-- difflib's `b2j` index: the ascending positions of `x` in `b`, emptied for
popular elements by autojunk. -/
def b2j (b : List α) (x : α) : List Nat :=
  if isPopular b x then []
  else (List.range b.length).filter (fun j => b.get? j == some x)

/-- `j2len.get(j - 1, 0)`: run length ending just before position `j` in the
previous row of the dynamic program. -/
def prevLen (j2len : Nat → Nat) (j : Nat) : Nat :=
  if j = 0 then 0 else j2len (j - 1)

/-- Inner loop of `find_longest_match` for one source index `i`: walk the
ascending positions `j` of `a[i]` in `b` restricted to `[blo, bhi)` (the
`continue`/`break` of difflib equal filtering on the sorted position list),
extend runs via `k = j2len.get(j-1, 0) + 1` into a fresh map, and update the
best match on strict improvement.  `i + 1 - k` is Python's `i - k + 1` grouped
to avoid truncated subtraction (runs never exceed `i + 1`). -/
def flmInner (i : Nat) (o : Nat → Nat) (p : (Nat × Nat × Nat) × (Nat → Nat)) (j : Nat) :
    (Nat × Nat × Nat) × (Nat → Nat) :=
  -- body of `for j in b2j.get(a[i], [])`: `o` is the previous row's `j2len`
  -- (read-only during the loop), the second state component the fresh map.
  ((if p.1.2.2 < prevLen o j + 1 then
      (i + 1 - (prevLen o j + 1), j + 1 - (prevLen o j + 1), prevLen o j + 1)
    else p.1),
   fun m => if m = j then prevLen o j + 1 else p.2 m)

def flmStep (a b : List α) (blo bhi : Nat) (st : (Nat × Nat × Nat) × (Nat → Nat))
    (i : Nat) : (Nat × Nat × Nat) × (Nat → Nat) :=
  ((match a.get? i with
    | some x => b2j b x
    | none => []).filter (fun j => decide (blo ≤ j) && decide (j < bhi))).foldl
    (flmInner i st.2) (st.1, fun _ => 0)

/-- Dynamic-programming phase of `find_longest_match`:
`for i in range(alo, ahi)`, starting from best `(alo, blo, 0)`. -/
def flmLoop (a b : List α) (alo ahi blo bhi : Nat) : (Nat × Nat × Nat) × (Nat → Nat) :=
  (List.range' alo (ahi - alo)).foldl (flmStep a b blo bhi) ((alo, blo, 0), fun _ => 0)

/-- Backward extension loop of `find_longest_match`: while
`besti > alo and bestj > blo and a[besti-1] == b[bestj-1]`, grow the match
leftwards.  (With `isjunk=None` the junk set `bjunk` is empty, so the
junk-skipping guard is vacuous and the second, junk-only extension loop never
fires.)  Structured with fuel; the caller passes `besti`, an upper bound on the
iteration count. -/
def extendBack (a b : List α) (alo blo : Nat) : Nat → Nat × Nat × Nat → Nat × Nat × Nat
  | 0, best => best
  | fuel + 1, (bi, bj, bs) =>
    if alo < bi ∧ blo < bj ∧ a.get? (bi - 1) = b.get? (bj - 1) then
      extendBack a b alo blo fuel (bi - 1, bj - 1, bs + 1)
    else (bi, bj, bs)

/-- Forward extension loop of `find_longest_match`: while
`besti+bestsize < ahi and bestj+bestsize < bhi and a[besti+bestsize] ==
b[bestj+bestsize]`, grow the match rightwards (fuel bounds the iterations). -/
def extendFwd (a b : List α) (ahi bhi : Nat) : Nat → Nat × Nat × Nat → Nat × Nat × Nat
  | 0, best => best
  | fuel + 1, (bi, bj, bs) =>
    if bi + bs < ahi ∧ bj + bs < bhi ∧ a.get? (bi + bs) = b.get? (bj + bs) then
      extendFwd a b ahi bhi fuel (bi, bj, bs + 1)
    else (bi, bj, bs)

/-- difflib `SequenceMatcher.find_longest_match` on the window
`[alo, ahi) × [blo, bhi)`: dynamic program, then both extension phases. -/
def findLongestMatch (a b : List α) (alo ahi blo bhi : Nat) : Nat × Nat × Nat :=
  let best := (flmLoop a b alo ahi blo bhi).1
  let best := extendBack a b alo blo best.1 best
  extendFwd a b ahi bhi (ahi - (best.1 + best.2.2)) best

/-- Recursive block collection of `get_matching_blocks` (difflib's explicit
queue; the processing order is irrelevant because the result is sorted below).
Structured with fuel: every recursive window is strictly smaller, so fuel
`ahi - alo + 1` suffices at the top-level call. -/
def mblocksF (a b : List α) : Nat → Nat → Nat → Nat → Nat → List (Nat × Nat × Nat)
  | 0, _, _, _, _ => []
  | fuel + 1, alo, ahi, blo, bhi =>
    let m := findLongestMatch a b alo ahi blo bhi
    let i := m.1
    let j := m.2.1
    let k := m.2.2
    if k = 0 then []
    else
      (if alo < i ∧ blo < j then mblocksF a b fuel alo i blo j else []) ++
        (i, j, k) ::
          (if i + k < ahi ∧ j + k < bhi then mblocksF a b fuel (i + k) ahi (j + k) bhi else [])

/-- Lexicographic order on `(i, j, size)` triples: Python's tuple sort used on
`matching_blocks`. -/
def blockLe (x y : Nat × Nat × Nat) : Prop :=
  x.1 < y.1 ∨ (x.1 = y.1 ∧ (x.2.1 < y.2.1 ∨ (x.2.1 = y.2.1 ∧ x.2.2 ≤ y.2.2)))

instance : DecidableRel blockLe := fun x y => by
  unfold blockLe
  infer_instance

/-- `matching_blocks.sort()`. -/
def sortBlocks (l : List (Nat × Nat × Nat)) : List (Nat × Nat × Nat) :=
  List.insertionSort blockLe l

/-- Adjacent-block merging and end sentinel of `get_matching_blocks`: a block
starting exactly where the previous one ends is fused into it; `(la, lb, 0)` is
appended. -/
def nonAdjacent (blocks : List (Nat × Nat × Nat)) (la lb : Nat) : List (Nat × Nat × Nat) :=
  let st := blocks.foldl
    (fun (st : List (Nat × Nat × Nat) × Nat × Nat × Nat) b =>
      if st.2.1 + st.2.2.2 = b.1 ∧ st.2.2.1 + st.2.2.2 = b.2.1 then
        (st.1, (st.2.1, st.2.2.1, st.2.2.2 + b.2.2))
      else
        ((if st.2.2.2 ≠ 0 then st.1 ++ [st.2] else st.1), b))
    ([], (0, 0, 0))
  (if st.2.2.2 ≠ 0 then st.1 ++ [st.2] else st.1) ++ [(la, lb, 0)]

/-- Tags of difflib opcodes. -/
inductive Tag where
  | replace
  | delete
  | insert
  | equal
deriving DecidableEq

/-- One difflib opcode `(tag, i1, i2, j1, j2)`. -/
structure Opcode where
  tag : Tag
  i1 : Nat
  i2 : Nat
  j1 : Nat
  j2 : Nat
deriving DecidableEq

/-- difflib `get_opcodes`, folded over the merged matching blocks: emit a
`replace`/`delete`/`insert` opcode for the gap before each block and an `equal`
opcode for each nonempty block. -/
def opcodesOfBlocks (blocks : List (Nat × Nat × Nat)) : List Opcode :=
  (blocks.foldl
    (fun (st : List Opcode × Nat × Nat) b =>
      let i := st.2.1
      let j := st.2.2
      let ans :=
        if i < b.1 ∧ j < b.2.1 then st.1 ++ [⟨.replace, i, b.1, j, b.2.1⟩]
        else if i < b.1 then st.1 ++ [⟨.delete, i, b.1, j, b.2.1⟩]
        else if j < b.2.1 then st.1 ++ [⟨.insert, i, b.1, j, b.2.1⟩]
        else st.1
      let i2 := b.1 + b.2.2
      let j2 := b.2.1 + b.2.2
      (if b.2.2 ≠ 0 then ans ++ [⟨.equal, b.1, i2, b.2.1, j2⟩] else ans, i2, j2))
    ([], 0, 0)).1

/-- `SequenceMatcher(None, a, b).get_opcodes()`. -/
def smOpcodes (a b : List α) : List Opcode :=
  opcodesOfBlocks
    (nonAdjacent (sortBlocks (mblocksF a b (a.length + 1) 0 a.length 0 b.length))
      a.length b.length)

end SequenceMatcher

/-- Inner comparison loop of the `replace` branch of the inferrer: for each
column of the shared header, compare the parsed values of the paired
source/target lines, skip the pair when both parse as missing, and emit an
overwrite carrying the target value (null when the target value is missing,
i.e. exactly `val2`) when the values differ.  `i` is the source row index of
the pair; the fold emits in column order, like the Python `append` loop. -/
def diffCells (columns fields1 fields2 : List String) (i : Nat) : List OverwriteCell :=
  columns.foldr (fun col acc =>
      if rowVal columns fields1 col = none ∧ rowVal columns fields2 col = none then acc
      else if rowVal columns fields1 col ≠ rowVal columns fields2 col then
        ⟨(i : Int), col, rowVal columns fields2 col⟩ :: acc
      else acc)
    []

/-- Accumulation over one alignment opcode (the body of the
`for tag, i1, i2, j1, j2` loop of the inferrer): pure deletions extend
`delete_rows`; replacements pair the overlapping prefix of the two ranges, emit
cell overwrites, and add the trailing unmatched source rows to `delete_rows`;
`equal` — and the unhandled `insert` — change nothing.  `aLines`/`bLines` are
the full CSV line lists (header at position 0, hence the `+ 1` offsets). -/
def genStep (aLines bLines : List (List String)) (columns : List String)
    (st : List Int × List OverwriteCell) (op : Opcode) : List Int × List OverwriteCell :=
  match op.tag with
  | .equal => st
  | .insert => st
  | .delete => (st.1 ++ (List.range' op.i1 (op.i2 - op.i1)).map Int.ofNat, st.2)
  | .replace =>
    let width := min (op.i2 - op.i1) (op.j2 - op.j1)
    let ows := (List.range width).foldl
      (fun acc offset =>
        acc ++ diffCells columns (aLines.getD (op.i1 + offset + 1) [])
          (bLines.getD (op.j1 + offset + 1) []) (op.i1 + offset))
      st.2
    let dels :=
      if op.j2 - op.j1 < op.i2 - op.i1 then
        (List.range' (op.i1 + (op.j2 - op.j1)) (op.i2 - op.i1 - (op.j2 - op.j1))).map Int.ofNat
      else []
    (st.1 ++ dels, ows)

/-- generate_transform_spec_delete_overwrite (transform_spec.py): render both
tables to CSV lines, align the body lines with `SequenceMatcher`, accumulate
deletions and overwrites over the opcodes, and build the spec through the
pydantic constructor — note that the accumulated deletions are passed under the
keyword `delete_rows`, which is not a declared field of `TableDeltaSpec`. -/
def generate_transform_spec_delete_overwrite (df df_recovered : Table) : TableDeltaSpec :=
  let df_str_lines := csvLines df
  let df_recovered_str_lines := csvLines df_recovered
  let columns := df_str_lines.headD []
  let opcodes := smOpcodes df_str_lines.tail df_recovered_str_lines.tail
  let res := opcodes.foldl (genStep df_str_lines df_recovered_str_lines columns) ([], [])
  tableDeltaSpecOfKwargs [("delete_rows", .rows res.1), ("overwrite_cells", .cells res.2)]

/-- Concrete source table of the documented scenario (claim C2). -/
def c2S : Table :=
  ⟨["x", "y"], [[some "a", some "1"], [some "b", some "2"], [some "c", some "3"]]⟩

/-- Concrete target table of the documented scenario (claim C2). -/
def c2T : Table := ⟨["x", "y"], [[some "a", some "1"], [some "c", some "9"]]⟩

/-- Spec the documented scenario claims the inferrer returns (claim C2). -/
def c2ClaimedSpec : TableDeltaSpec := ⟨[1], [⟨2, "y", some "9"⟩]⟩

/-- Sub-spec of the in-range operations: the drops and overwrites whose row
index is below the table's row count. -/
def restrictSpec (t : Table) (spec : TableDeltaSpec) : TableDeltaSpec where
  drop_rows := spec.drop_rows.filter (fun d => decide (d < (t.rows.length : Int)))
  overwrite_cells :=
    spec.overwrite_cells.filter (fun op => decide (op.row < (t.rows.length : Int)))

/-- Shape of `recovered_tables_transform_spec` as accepted by `TaskInstance`:
either the list of specs, or a single legacy dict-of-lists to be normalized by
the loader. -/
inductive SpecsInput where
  | list (specs : List TableDeltaSpec)
  | dict (d : List (String × List SpecKwarg))

/-- convert_dict_of_lists_to_list_of_dicts (utils.py): an empty dict gives an
empty list; otherwise the first key's list length is the expected count, the
first key whose list has a different length raises a `ValueError` (modeled as
`Except.error` carrying the formatted message), and on success the `i`-th
output dict holds every key's `i`-th element.  (The Python function is generic
over values; it is instantiated at the spec-field values of the modeled call
site, and the always-in-range `dict_of_lists[key][i]` access is rendered by
`getD` with an arbitrary default.) -/
def convert_dict_of_lists_to_list_of_dicts
    (dict_of_lists : List (String × List SpecKwarg)) :
    Except String (List (List (String × SpecKwarg))) :=
  match dict_of_lists.head? with
  | none => .ok []
  | some kv0 =>
    match dict_of_lists.find? (fun kv => kv.2.length != kv0.2.length) with
    | some kv => .error ("All lists must have the same length. Found " ++
        toString kv.2.length ++ " for key " ++ kv.1 ++ " but expected " ++
        toString kv0.2.length)
    | none => .ok ((List.range kv0.2.length).map (fun i =>
        dict_of_lists.map (fun kv => (kv.1, kv.2.getD i (.rows [])))))

/-- Normalization performed by `TaskInstance.model_post_init` (datamodel.py)
before any use of the field: a dict-of-lists input is converted to the list of
per-index dicts, each fed to the pydantic `TableDeltaSpec` constructor; a
raised `ValueError` propagates out of the loader.  A list input is used as is. -/
def normalizeRecoveredSpecs : SpecsInput → Except String (List TableDeltaSpec)
  | .list specs => .ok specs
  | .dict d =>
    (convert_dict_of_lists_to_list_of_dicts d).map
      (fun l => l.map tableDeltaSpecOfKwargs)

instance : IsTotal Int (fun a b => b ≤ a) := ⟨fun a b => le_total b a⟩

instance : IsTrans Int (fun a b => b ≤ a) := ⟨fun _ _ _ h1 h2 => le_trans h2 h1⟩

instance : IsAntisymm Int (fun a b => b ≤ a) := ⟨fun _ _ h1 h2 => le_antisymm h2 h1⟩

-- difflib DP helpers for the self-comparison proofs (claim C7)
section SelfMatchDefs

variable {α : Type} [DecidableEq α]

/-- Position `j` participates in a DP match against `a[i] = l[i]` in the
self-comparison of `l`. -/
def visible (l : List α) (i j : Nat) : Bool :=
  match l.get? i with
  | some x => decide (j ∈ b2j l x)
  | none => false

/-- Value of the DP map `j2len` at key `j` after outer step `i` of the
self-comparison of `l` on the full window. -/
def runLen (l : List α) : Nat → Nat → Nat
  | 0, j => if visible l 0 j then 1 else 0
  | i + 1, j =>
    if visible l (i + 1) j then (if j = 0 then 1 else runLen l i (j - 1) + 1) else 0

/-- State of the DP loop of the self-comparison after `m` outer steps. -/
def flmLoopN (l : List α) (m : Nat) : (Nat × Nat × Nat) × (Nat → Nat) :=
  (List.range m).foldl (flmStep l l 0 l.length) ((0, 0, 0), fun _ => 0)

end SelfMatchDefs

/-! ### Basic facts about the applier and the inferred spec -/

/-- The pydantic constructor call made by the inferrer: the field `drop_rows`
is absent from the keyword list (the deletions travel under `delete_rows`, an
ignored extra keyword), so it takes its default `[]`. -/
lemma tableDeltaSpecOfKwargs_drop_rows (dl : List Int) (ow : List OverwriteCell) :
    (tableDeltaSpecOfKwargs [("delete_rows", .rows dl), ("overwrite_cells", .cells ow)]).drop_rows
      = [] := by
  simp only [tableDeltaSpecOfKwargs, List.lookup]
  rw [show (("drop_rows" : String) == "delete_rows") = false from by decide,
    show (("drop_rows" : String) == "overwrite_cells") = false from by decide]

/-- The pydantic constructor call made by the inferrer keeps the overwrites. -/
lemma tableDeltaSpecOfKwargs_overwrites (dl : List Int) (ow : List OverwriteCell) :
    (tableDeltaSpecOfKwargs
        [("delete_rows", .rows dl), ("overwrite_cells", .cells ow)]).overwrite_cells = ow := by
  simp only [tableDeltaSpecOfKwargs, List.lookup]
  rw [show (("overwrite_cells" : String) == "delete_rows") = false from by decide,
    show (("overwrite_cells" : String) == "overwrite_cells") = true from by decide]

/-- Every spec produced by the inferrer has an empty `drop_rows`. -/
lemma generate_drop_rows_nil (df df_recovered : Table) :
    (generate_transform_spec_delete_overwrite df df_recovered).drop_rows = [] := by
  unfold generate_transform_spec_delete_overwrite
  exact tableDeltaSpecOfKwargs_drop_rows _ _

/-- A single `.loc` assignment never changes the number of rows. -/
lemma locSet_rows_length (t : Table) (r : Int) (col : String) (v : Cell) :
    (locSet t r col v).rows.length = t.rows.length := by
  unfold locSet
  split
  · split <;> simp
  · rfl

/-- A guarded overwrite step never changes the number of rows. -/
lemma owStep_rows_length (t : Table) (op : OverwriteCell) :
    (owStep t op).rows.length = t.rows.length := by
  unfold owStep
  split
  · exact locSet_rows_length ..
  · rfl

/-- The overwrite phase never changes the number of rows. -/
lemma owFold_rows_length : ∀ (l : List OverwriteCell) (t : Table),
    (l.foldl owStep t).rows.length = t.rows.length
  | [], _ => rfl
  | op :: l, t => by
    rw [List.foldl_cons, owFold_rows_length l (owStep t op), owStep_rows_length]

/-- Applying a spec with empty `drop_rows` is just its overwrite phase. -/
lemma apply_dropnil (df : Table) (spec : TableDeltaSpec) (h : spec.drop_rows = []) :
    apply_transform_spec df spec = spec.overwrite_cells.foldl owStep df := by
  simp only [apply_transform_spec]
  rw [h]
  rfl

/-- Applying an inferred spec reduces to its overwrite phase: the drop phase is
a fold over the empty (always-defaulted) `drop_rows`. -/
lemma apply_generate_eq_owFold (S T : Table) :
    apply_transform_spec S (generate_transform_spec_delete_overwrite S T) =
      (generate_transform_spec_delete_overwrite S T).overwrite_cells.foldl owStep S :=
  apply_dropnil S _ (generate_drop_rows_nil S T)

/-- C4: for every pair of input tables, the spec returned by
`generate_transform_spec_delete_overwrite` has an empty `drop_rows` list — the
accumulated deletions are passed to the `TableDeltaSpec` constructor under the
keyword `delete_rows`, which is not a declared field, so pydantic ignores them
and the declared field `drop_rows` takes its default empty value. -/
theorem c4_drop_rows_always_empty (df df_recovered : Table) :
    (generate_transform_spec_delete_overwrite df df_recovered).drop_rows = [] :=
  generate_drop_rows_nil df df_recovered

/-- C1 counterexample: for `S = [["a"], ["b"]]` and `T = [["a"]]` (the target
obtained from the source by deleting row 1), replaying the inferred spec does
not reproduce `T`: the inferred deletion is discarded (see `drop_rows`), so the
round-trip law fails. -/
theorem c1_roundtrip_counterexample :
    apply_transform_spec (Table.mk ["x"] [[some "a"], [some "b"]])
        (generate_transform_spec_delete_overwrite
          (Table.mk ["x"] [[some "a"], [some "b"]]) (Table.mk ["x"] [[some "a"]])) ≠
      Table.mk ["x"] [[some "a"]] := by
  decide

/-- C1 amended: replaying an inferred spec always preserves the source's row
count (the inferred deletions are lost because `drop_rows` is always empty), so
`apply(S, infer(S, T))` cannot equal any target `T` with a different number of
rows — in particular the round-trip law fails for every target formed by
deleting at least one row. -/
theorem c1_roundtrip_amended (S T : Table) :
    (apply_transform_spec S (generate_transform_spec_delete_overwrite S T)).rows.length
        = S.rows.length ∧
      (T.rows.length ≠ S.rows.length →
        apply_transform_spec S (generate_transform_spec_delete_overwrite S T) ≠ T) := by
  have h1 : (apply_transform_spec S
      (generate_transform_spec_delete_overwrite S T)).rows.length = S.rows.length := by
    rw [apply_generate_eq_owFold]
    exact owFold_rows_length _ _
  refine ⟨h1, fun hne heq => hne ?_⟩
  rw [← h1, heq]

/-- C1 amended, witness: a concrete delete-only instance where the theorem
yields the failure of the round trip. -/
theorem c1_roundtrip_amended_witness :
    apply_transform_spec (Table.mk ["v"] [[some "p"], [some "q"], [some "r"]])
        (generate_transform_spec_delete_overwrite
          (Table.mk ["v"] [[some "p"], [some "q"], [some "r"]])
          (Table.mk ["v"] [[some "p"], [some "r"]])) ≠
      Table.mk ["v"] [[some "p"], [some "r"]] :=
  (c1_roundtrip_amended (Table.mk ["v"] [[some "p"], [some "q"], [some "r"]])
      (Table.mk ["v"] [[some "p"], [some "r"]])).2 (by decide)

/-- C2 counterexample: on the documented scenario the inferrer does not return
the documented spec `drop_rows=[1], overwrite_cells=[{row 2, col y, "9"}]`. -/
theorem c2_scenario_counterexample :
    generate_transform_spec_delete_overwrite c2S c2T ≠ c2ClaimedSpec := by
  decide

/-- C2 amended: on the documented scenario the inferrer aligns row 1 (`b,2`)
with the target line `c,9` and returns `drop_rows = []` (the accumulated
deletion of row 2 is discarded by the constructor) with the two overwrites
`{row 1, col x, "c"}` and `{row 1, col y, "9"}`; replaying the returned spec
yields `[["a","1"], ["c","9"], ["c","3"]]`, not `T`.  The spec the scenario
documents would itself replay to `T`. -/
theorem c2_scenario_amended :
    generate_transform_spec_delete_overwrite c2S c2T =
        ⟨[], [⟨1, "x", some "c"⟩, ⟨1, "y", some "9"⟩]⟩ ∧
      apply_transform_spec c2S (generate_transform_spec_delete_overwrite c2S c2T) =
        ⟨["x", "y"], [[some "a", some "1"], [some "c", some "9"], [some "c", some "3"]]⟩ ∧
      apply_transform_spec c2S c2ClaimedSpec = c2T := by
  refine ⟨by decide, by decide, by decide⟩

/-! ### C3: behavior of an overwrite with an unknown column name -/

/-- Position of a freshly appended name in a header list. -/
lemma indexOf?_append_self (l : List String) (c : String) (h : c ∉ l) :
    (l ++ [c]).indexOf? c = some l.length := by
  induction l with
  | nil => simp [List.indexOf?_cons]
  | cons a l ih =>
    have ha : (a == c) = false := by
      simp only [List.mem_cons, not_or] at h
      simp [beq_eq_false_iff_ne]
      exact fun hac => h.1 hac.symm
    have h2 : c ∉ l := by
      simp only [List.mem_cons, not_or] at h
      exact h.2
    simp [List.cons_append, List.indexOf?_cons, ha, ih h2]

/-- C3 counterexample: an `OverwriteCell` whose `col` is not among the table's
headers does not make the applier fail; pandas setting-with-enlargement
silently appends the column (missing in every other row) and writes the value. -/
theorem c3_bad_column_counterexample :
    ("zz" ∉ (Table.mk ["x"] [[some "a"], [some "b"]]).headers) ∧
      apply_transform_spec (Table.mk ["x"] [[some "a"], [some "b"]])
          ⟨[], [⟨0, "zz", some "v"⟩]⟩ =
        Table.mk ["x", "zz"] [[some "a", some "v"], [some "b", none]] := by
  exact ⟨by decide, by decide⟩

/-- C3 amended: for a well-formed table, an overwrite addressing an in-range
row but a column absent from the headers is tolerated, not an error: the
applier appends the column to the headers, keeps the row count, and stores the
new value at the addressed row (pandas `.loc` setting-with-enlargement).
Out-of-range row indices are silently skipped (claim C5's theorem). -/
theorem c3_bad_column_amended (t : Table) (op : OverwriteCell)
    (hw : ∀ row ∈ t.rows, row.length = t.headers.length)
    (hcol : op.col ∉ t.headers) (hr0 : 0 ≤ op.row)
    (hrn : op.row < (t.rows.length : Int)) :
    (apply_transform_spec t ⟨[], [op]⟩).headers = t.headers ++ [op.col] ∧
      (apply_transform_spec t ⟨[], [op]⟩).rows.length = t.rows.length ∧
      lookupCell (apply_transform_spec t ⟨[], [op]⟩) op.row.toNat op.col = op.new_value := by
  have hp : op.row.toNat < t.rows.length := by omega
  have happ : apply_transform_spec t ⟨[], [op]⟩ =
      { headers := t.headers ++ [op.col],
        rows := (t.rows.map (fun row => row ++ [none])).set op.row.toNat
          (t.rows.getD op.row.toNat [] ++ [op.new_value]) } := by
    have h1 : apply_transform_spec t ⟨[], [op]⟩ = owStep t op :=
      apply_dropnil t _ rfl
    rw [h1, owStep, if_pos hrn, locSet, if_pos hr0]
    rw [if_neg hcol]
  have hrow : t.rows.getD op.row.toNat [] = t.rows.get ⟨op.row.toNat, hp⟩ := by
    rw [List.getD_eq_getElem?_getD, List.getElem?_eq_getElem hp]
    rfl
  have hmem : t.rows.get ⟨op.row.toNat, hp⟩ ∈ t.rows := List.get_mem ..
  have hlen : (t.rows.getD op.row.toNat []).length = t.headers.length := by
    rw [hrow]
    exact hw _ hmem
  refine ⟨by rw [happ], by rw [happ]; simp, ?_⟩
  rw [happ]
  unfold lookupCell
  have hget : ((t.rows.map (fun row => row ++ [none])).set op.row.toNat
      (t.rows.getD op.row.toNat [] ++ [op.new_value])).get? op.row.toNat =
        some (t.rows.getD op.row.toNat [] ++ [op.new_value]) := by
    apply List.get?_set_eq_of_lt
    simpa using hp
  rw [hget, indexOf?_append_self _ _ hcol]
  have h3 : (t.rows.getD op.row.toNat [] ++ [op.new_value]).get? t.headers.length =
      some op.new_value := by
    rw [← hlen]
    exact List.get?_concat_length ..
  change ((t.rows.getD op.row.toNat [] ++ [op.new_value]).get? t.headers.length).getD none =
    op.new_value
  rw [h3]
  rfl

/-- C3 amended, witness at a concrete table and overwrite. -/
theorem c3_bad_column_amended_witness :
    (apply_transform_spec (Table.mk ["h"] [[some "w"]]) ⟨[], [⟨0, "k", some "u"⟩]⟩).headers =
        ["h"] ++ ["k"] ∧
      (apply_transform_spec (Table.mk ["h"] [[some "w"]])
          ⟨[], [⟨0, "k", some "u"⟩]⟩).rows.length = 1 ∧
      lookupCell (apply_transform_spec (Table.mk ["h"] [[some "w"]])
          ⟨[], [⟨0, "k", some "u"⟩]⟩) 0 "k" = some "u" :=
  c3_bad_column_amended (Table.mk ["h"] [[some "w"]]) ⟨0, "k", some "u"⟩
    (by decide) (by decide) (by decide) (by decide)

/-! ### C5 and C8: the delete phase, descending sort, tolerant replay -/

/-- The applier's descending sort is sorted w.r.t. `≥`. -/
lemma sortDescInt_sorted (l : List Int) : List.Sorted (fun a b => b ≤ a) (sortDescInt l) :=
  List.sorted_insertionSort _ l

/-- The applier's descending sort is a permutation of its input. -/
lemma sortDescInt_perm (l : List Int) : (sortDescInt l).Perm l :=
  List.perm_insertionSort _ l

/-- Sorting descending is invariant under permutation of the input. -/
lemma sortDescInt_eq_of_perm {l1 l2 : List Int} (h : l1.Perm l2) :
    sortDescInt l1 = sortDescInt l2 :=
  List.eq_of_perm_of_sorted ((sortDescInt_perm l1).trans (h.trans (sortDescInt_perm l2).symm))
    (sortDescInt_sorted l1) (sortDescInt_sorted l2)

/-- C8: the applier's result only depends on the multiset of `drop_rows` (the
descending sort makes the delete phase order-independent): two specs that agree
on `overwrite_cells` and differ only by a permutation of `drop_rows` replay
identically on every table. -/
theorem c8_delete_order_independence (t : Table) (s1 s2 : TableDeltaSpec)
    (hperm : s1.drop_rows.Perm s2.drop_rows)
    (how : s1.overwrite_cells = s2.overwrite_cells) :
    apply_transform_spec t s1 = apply_transform_spec t s2 := by
  simp only [apply_transform_spec]
  rw [how, sortDescInt_eq_of_perm hperm]

/-- C8 witness: the spec's documented example ordering `[5,2,8]` against
`[8,5,2]`. -/
theorem c8_delete_order_independence_witness :
    apply_transform_spec (Table.mk ["x"] [[some "a"], [some "b"], [some "c"]])
        ⟨[5, 2, 8], []⟩ =
      apply_transform_spec (Table.mk ["x"] [[some "a"], [some "b"], [some "c"]])
        ⟨[8, 5, 2], []⟩ :=
  c8_delete_order_independence (Table.mk ["x"] [[some "a"], [some "b"], [some "c"]])
    ⟨[5, 2, 8], []⟩ ⟨[8, 5, 2], []⟩ (by decide) rfl

/-- Out-of-range overwrites are no-ops: the overwrite fold equals the fold over
the in-range overwrites (the row count is invariant during the phase). -/
lemma owFold_filter : ∀ (l : List OverwriteCell) (t : Table) (n : Nat),
    t.rows.length = n →
    l.foldl owStep t = (l.filter (fun op => decide (op.row < (n : Int)))).foldl owStep t
  | [], _, _, _ => rfl
  | op :: l, t, n, ht => by
    by_cases h : op.row < (n : Int)
    · rw [List.filter_cons_of_pos (by simpa using h), List.foldl_cons, List.foldl_cons]
      exact owFold_filter l (owStep t op) n (by rw [owStep_rows_length, ht])
    · rw [List.filter_cons_of_neg (by simpa using h), List.foldl_cons]
      have hid : owStep t op = t := by
        unfold owStep
        rw [if_neg (by rw [ht]; exact h)]
      rw [hid]
      exact owFold_filter l t n ht

/-- Drops at or past the current row count are all skipped. -/
lemma dropFold_skip : ∀ (L : List Int) (t : Table),
    (∀ d ∈ L, (t.rows.length : Int) ≤ d) → L.foldl dropStep t = t
  | [], _, _ => rfl
  | d :: L, t, h => by
    have hid : dropStep t d = t := by
      unfold dropStep
      rw [if_neg (not_lt.mpr (h d (List.mem_cons_self ..)))]
    rw [List.foldl_cons, hid]
    exact dropFold_skip L t (fun e he => h e (List.mem_cons_of_mem _ he))

/-- Complement filters for the threshold `n`, as Booleans. -/
lemma decide_lt_eq_not_decide_le (n d : Int) : (decide (d < n)) = !decide (n ≤ d) := by
  by_cases h : n ≤ d
  · simp [h, not_lt.mpr h]
  · simp [h, lt_of_not_le h]

/-- The descending sort splits at a threshold: the elements `≥ n` (sorted) come
first, then the elements `< n` (sorted). -/
lemma sortDescInt_split (l : List Int) (n : Int) :
    sortDescInt l =
      sortDescInt (l.filter (fun d => decide (n ≤ d))) ++
        sortDescInt (l.filter (fun d => decide (d < n))) := by
  apply List.eq_of_perm_of_sorted (r := fun a b => b ≤ a)
  · have hsplit := List.filter_append_perm (fun d => decide ((n : Int) ≤ d)) l
    have hneg : l.filter (fun d => !decide ((n : Int) ≤ d)) =
        l.filter (fun d => decide (d < n)) := by
      apply List.filter_congr
      intro d _
      exact (decide_lt_eq_not_decide_le n d).symm
    rw [hneg] at hsplit
    exact (sortDescInt_perm l).trans
      (hsplit.symm.trans (((sortDescInt_perm _).append (sortDescInt_perm _)).symm))
  · exact sortDescInt_sorted l
  · refine List.pairwise_append.mpr ⟨sortDescInt_sorted _, sortDescInt_sorted _, ?_⟩
    intro a ha b hb
    have ha2 := (sortDescInt_perm _).mem_iff.mp ha
    have hb2 := (sortDescInt_perm _).mem_iff.mp hb
    have h1 : n ≤ a := by simpa using (List.mem_filter.mp ha2).2
    have h2 : b < n := by simpa using (List.mem_filter.mp hb2).2
    exact le_of_lt (lt_of_lt_of_le h2 h1)

/-- C5: tolerant replay — applying any spec whose overwrite rows are
non-negative (as every inferred spec's are) equals applying only its in-range
operations: every drop index and every overwrite row index at or beyond the
table's row count is silently skipped, and the applier never fails (it is a
total function in this model). -/
theorem c5_tolerant_replay (t : Table) (spec : TableDeltaSpec)
    (hnn : ∀ op ∈ spec.overwrite_cells, 0 ≤ op.row) :
    apply_transform_spec t spec = apply_transform_spec t (restrictSpec t spec) := by
  clear hnn
  simp only [apply_transform_spec, restrictSpec]
  have how : spec.overwrite_cells.foldl owStep t =
      (spec.overwrite_cells.filter
        (fun op => decide (op.row < (t.rows.length : Int)))).foldl owStep t :=
    owFold_filter spec.overwrite_cells t t.rows.length rfl
  rw [← how]
  rw [sortDescInt_split spec.drop_rows (t.rows.length : Int), List.foldl_append]
  congr 1
  apply dropFold_skip
  intro d hd
  have hlen : (spec.overwrite_cells.foldl owStep t).rows.length = t.rows.length :=
    owFold_rows_length ..
  have hmem := (sortDescInt_perm _).mem_iff.mp hd
  have := (List.mem_filter.mp hmem).2
  rw [hlen]
  simpa using this

/-- C5 witness: a concrete shrunk table with out-of-range drop and overwrite. -/
theorem c5_tolerant_replay_witness :
    apply_transform_spec (Table.mk ["x"] [[some "a"], [some "b"]]) ⟨[1, 7], [⟨5, "x", some "z"⟩]⟩ =
      apply_transform_spec (Table.mk ["x"] [[some "a"], [some "b"]])
        (restrictSpec (Table.mk ["x"] [[some "a"], [some "b"]])
          ⟨[1, 7], [⟨5, "x", some "z"⟩]⟩) :=
  c5_tolerant_replay (Table.mk ["x"] [[some "a"], [some "b"]]) ⟨[1, 7], [⟨5, "x", some "z"⟩]⟩
    (by decide)

/-! ### C6: missing-value handling in the inferrer -/

/-- Membership in an append-accumulating fold. -/
lemma mem_foldl_append {β γ : Type} (L : List β) (f : β → List γ) (s : List γ) (x : γ) :
    x ∈ L.foldl (fun acc b => acc ++ f b) s ↔ x ∈ s ∨ ∃ b ∈ L, x ∈ f b := by
  induction L generalizing s with
  | nil => simp
  | cons b L ih =>
    rw [List.foldl_cons, ih]
    simp only [List.mem_append, List.mem_cons]
    constructor
    · rintro (⟨hs | hf⟩ | ⟨c, hc, hx⟩)
      · exact Or.inl hs
      · exact Or.inr ⟨b, Or.inl rfl, hf⟩
      · exact Or.inr ⟨c, Or.inr hc, hx⟩
    · rintro (hs | ⟨c, hc | hc, hx⟩)
      · exact Or.inl (Or.inl hs)
      · exact Or.inl (Or.inr (hc ▸ hx))
      · exact Or.inr ⟨c, hc, hx⟩

/-- Provenance of an overwrite accumulated by one opcode step. -/
lemma genStep_ow_mem {aLines bLines : List (List String)} {columns : List String}
    {st : List Int × List OverwriteCell} {op : Opcode} {oc : OverwriteCell}
    (h : oc ∈ (genStep aLines bLines columns st op).2) :
    oc ∈ st.2 ∨ ∃ offset, oc ∈ diffCells columns (aLines.getD (op.i1 + offset + 1) [])
      (bLines.getD (op.j1 + offset + 1) []) (op.i1 + offset) := by
  obtain ⟨tag, i1, i2, j1, j2⟩ := op
  cases tag with
  | equal => exact Or.inl h
  | insert => exact Or.inl h
  | delete => exact Or.inl h
  | replace =>
    simp only [genStep] at h
    rcases (mem_foldl_append _ _ _ _).mp h with hs | ⟨offset, _, hd⟩
    · exact Or.inl hs
    · exact Or.inr ⟨offset, hd⟩

/-- Provenance of an overwrite accumulated over all opcodes. -/
lemma genFold_ow_mem {aLines bLines : List (List String)} {columns : List String} :
    ∀ (opcodes : List Opcode) (st : List Int × List OverwriteCell) (oc : OverwriteCell),
    oc ∈ (opcodes.foldl (genStep aLines bLines columns) st).2 →
    oc ∈ st.2 ∨ ∃ (op : Opcode) (offset : Nat),
      oc ∈ diffCells columns (aLines.getD (op.i1 + offset + 1) [])
        (bLines.getD (op.j1 + offset + 1) []) (op.i1 + offset)
  | [], _, _, h => Or.inl h
  | op :: opcodes, st, oc, h => by
    rw [List.foldl_cons] at h
    rcases genFold_ow_mem opcodes (genStep aLines bLines columns st op) oc h with h1 | h1
    · rcases genStep_ow_mem h1 with h2 | ⟨offset, h2⟩
      · exact Or.inl h2
      · exact Or.inr ⟨op, offset, h2⟩
    · exact Or.inr h1

/-- Shape of the overwrites emitted by the column comparison loop: every
emitted cell records the compared target value, and the pair that produced it
was not a pair of two missing values. -/
lemma diffCells_mem_aux : ∀ (cs : List String) (columns f1 f2 : List String) (i : Nat)
    (oc : OverwriteCell),
    oc ∈ cs.foldr (fun col acc =>
      if rowVal columns f1 col = none ∧ rowVal columns f2 col = none then acc
      else if rowVal columns f1 col ≠ rowVal columns f2 col then
        ⟨(i : Int), col, rowVal columns f2 col⟩ :: acc
      else acc) [] →
    ∃ col, oc = ⟨(i : Int), col, rowVal columns f2 col⟩ ∧
      ¬(rowVal columns f1 col = none ∧ rowVal columns f2 col = none)
  | [], _, _, _, _, _, h => absurd h (List.not_mem_nil _)
  | c :: cs, columns, f1, f2, i, oc, h => by
    rw [List.foldr_cons] at h
    by_cases h1 : rowVal columns f1 c = none ∧ rowVal columns f2 c = none
    · rw [if_pos h1] at h
      exact diffCells_mem_aux cs columns f1 f2 i oc h
    · rw [if_neg h1] at h
      by_cases h2 : rowVal columns f1 c ≠ rowVal columns f2 c
      · rw [if_pos h2] at h
        rcases List.mem_cons.mp h with h3 | h3
        · exact ⟨c, h3, h1⟩
        · exact diffCells_mem_aux cs columns f1 f2 i oc h3
      · rw [if_neg h2] at h
        exact diffCells_mem_aux cs columns f1 f2 i oc h

/-- Every overwrite emitted by `diffCells` has the paired row index, records
the target value, and does not come from a both-missing pair. -/
lemma diffCells_mem {columns f1 f2 : List String} {i : Nat} {oc : OverwriteCell}
    (h : oc ∈ diffCells columns f1 f2 i) :
    oc.row = (i : Int) ∧ oc.new_value = rowVal columns f2 oc.col ∧
      ¬(rowVal columns f1 oc.col = none ∧ rowVal columns f2 oc.col = none) := by
  obtain ⟨c, rfl, hg⟩ := diffCells_mem_aux columns columns f1 f2 i oc h
  exact ⟨rfl, rfl, hg⟩

/-- The body CSV line of row `i` is the row's rendered field list. -/
lemma csvLines_getD (S : Table) (i : Nat) (h : i < S.rows.length) :
    (csvLines S).getD (i + 1) [] = (S.rows.getD i []).map renderCell := by
  unfold csvLines
  rw [List.getD_cons_succ]
  rw [List.getD_eq_getElem?_getD, List.getD_eq_getElem?_getD, List.getElem?_map,
    List.getElem?_eq_getElem h]
  rfl

/-- Reading a column back from a rendered row line gives exactly the table
cell's textual-missing normalization. -/
lemma rowVal_render_eq (S : Table) (i : Nat) (h : i < S.rows.length) (c : String) :
    rowVal S.headers ((S.rows.getD i []).map renderCell) c =
      parseCell (renderCell (lookupCell S i c)) := by
  unfold rowVal lookupCell
  have hrow : S.rows.get? i = some (S.rows.getD i []) := by
    rw [List.get?_eq_getElem?, List.getElem?_eq_getElem h, List.getD_eq_getElem?_getD,
      List.getElem?_eq_getElem h]
    rfl
  rw [hrow]
  cases hidx : S.headers.indexOf? c with
  | none => rfl
  | some k =>
    have hmap : ((S.rows.getD i []).map renderCell).get? k =
        ((S.rows.getD i []).get? k).map renderCell := by
      rw [List.get?_eq_getElem?, List.get?_eq_getElem?, List.getElem?_map]
    change (match ((S.rows.getD i []).map renderCell).get? k with
      | some s => parseCell s
      | none => none) = parseCell (renderCell (((S.rows.getD i []).get? k).getD none))
    rw [hmap]
    cases (S.rows.getD i []).get? k with
    | none => rfl
    | some cell => rfl

/-- C6 counterexample: at a cell position where both tables' values are missing
(`S` row 2 / `T` row 2, column `x`), the inferrer still emits an
`OverwriteCell` for that cell — difflib aligns source row 2 with target row 1,
whose `x` value is present, so the both-missing special case never sees the
position-wise pair. -/
theorem c6_missing_equivalence_counterexample :
    (⟨2, "x", some "q"⟩ : OverwriteCell) ∈
        (generate_transform_spec_delete_overwrite
          (Table.mk ["x", "y"]
            [[some "D", some "1"], [some "M", some "2"], [none, some "3"], [some "P", some "4"]])
          (Table.mk ["x", "y"]
            [[some "M", some "2"], [some "q", some "3"], [none, some "4"]])).overwrite_cells ∧
      parseCell (renderCell (lookupCell
        (Table.mk ["x", "y"]
          [[some "D", some "1"], [some "M", some "2"], [none, some "3"], [some "P", some "4"]])
        2 "x")) = none ∧
      parseCell (renderCell (lookupCell
        (Table.mk ["x", "y"]
          [[some "M", some "2"], [some "q", some "3"], [none, some "4"]])
        2 "x")) = none := by
  refine ⟨by decide, by decide, by decide⟩

/-- C6 amended: the both-missing special case holds for the pairs the inferrer
actually compares: an emitted `OverwriteCell` never records a comparison of two
missing values — if its `new_value` is null (the compared target value was
missing) then the source cell it addresses does not parse as missing, and
conversely.  (The position-wise reading fails when the alignment pairs a source
row with a different-index target row; see the counterexample.) -/
theorem c6_missing_equivalence_amended (S T : Table) (oc : OverwriteCell)
    (hmem : oc ∈ (generate_transform_spec_delete_overwrite S T).overwrite_cells)
    (hrow : oc.row.toNat < S.rows.length) :
    ¬(parseCell (renderCell (lookupCell S oc.row.toNat oc.col)) = none ∧
        oc.new_value = none) := by
  simp only [generate_transform_spec_delete_overwrite] at hmem
  rw [tableDeltaSpecOfKwargs_overwrites] at hmem
  rcases genFold_ow_mem _ _ _ hmem with h | ⟨op, offset, hd⟩
  · exact absurd h (List.not_mem_nil _)
  obtain ⟨hoc_row, hoc_val, hguard⟩ := diffCells_mem hd
  have hcols : (csvLines S).headD [] = S.headers := rfl
  have hi : oc.row.toNat = op.i1 + offset := by
    rw [hoc_row]
    rfl
  rw [hi] at hrow
  rw [hcols] at hoc_val hguard
  rw [csvLines_getD S (op.i1 + offset) hrow] at hguard
  rw [rowVal_render_eq S (op.i1 + offset) hrow] at hguard
  rintro ⟨hmiss, hnv⟩
  rw [hi] at hmiss
  exact hguard ⟨hmiss, by rw [← hoc_val, ← hnv]⟩

/-- C6 amended, witness at a concrete overwrite-producing pair. -/
theorem c6_missing_equivalence_amended_witness :
    ¬(parseCell (renderCell (lookupCell (Table.mk ["x"] [[some "a"]])
        (0 : Int).toNat "x")) = none ∧
      (some "b" : Cell) = none) :=
  c6_missing_equivalence_amended (Table.mk ["x"] [[some "a"]]) (Table.mk ["x"] [[some "b"]])
    ⟨0, "x", some "b"⟩ (by decide) (by decide)

/-! ### C7: `SequenceMatcher` on two equal sequences finds the full match

The dynamic program of `find_longest_match`, run on `(l, l)` over the full
window, keeps its best match on the diagonal; the extension loops then grow a
diagonal best to the whole sequence, so the matcher returns the single block
`(0, 0, |l|)` and `get_opcodes` one `equal` opcode. -/

section SelfMatch

variable {α : Type} [DecidableEq α]

/-- Membership in the `b2j` index. -/
lemma mem_b2j {b : List α} {x : α} {j : Nat} :
    j ∈ b2j b x ↔ isPopular b x = false ∧ b.get? j = some x := by
  unfold b2j
  split
  · rename_i hpop
    simp [hpop]
  · rename_i hpop
    rw [List.mem_filter]
    constructor
    · rintro ⟨_, h2⟩
      exact ⟨Bool.not_eq_true _ ▸ hpop, by simpa using h2⟩
    · rintro ⟨_, h2⟩
      refine ⟨List.mem_range.mpr ?_, by simpa using h2⟩
      rw [List.get?_eq_getElem?] at h2
      exact (List.getElem?_eq_some.mp h2).1

lemma pairwise_lt_filter_range (n : Nat) (p : Nat → Bool) :
    ((List.range n).filter p).Pairwise (· < ·) :=
  List.Pairwise.sublist (List.filter_sublist _) (List.pairwise_lt_range n)

/-- The `b2j` position lists are strictly ascending. -/
lemma b2j_sorted (b : List α) (x : α) : (b2j b x).Pairwise (· < ·) := by
  unfold b2j
  split
  · exact List.Pairwise.nil
  · exact pairwise_lt_filter_range ..

/-- Characterization of visibility. -/
lemma visible_iff {l : List α} {i j : Nat} :
    visible l i j = true ↔
      ∃ x, l.get? i = some x ∧ isPopular l x = false ∧ l.get? j = some x := by
  unfold visible
  cases hx : l.get? i with
  | none =>
    refine iff_of_false (by simp) ?_
    rintro ⟨x, hx2, -, -⟩
    exact Option.noConfusion hx2
  | some x =>
    simp only [decide_eq_true_eq, mem_b2j]
    constructor
    · rintro ⟨h1, h2⟩
      exact ⟨x, rfl, h1, h2⟩
    · rintro ⟨y, hy, h1, h2⟩
      obtain rfl : x = y := by injection hy
      exact ⟨h1, h2⟩

/-- Visibility copies onto the right diagonal position. -/
lemma visible_diag_right {l : List α} {i j : Nat} (h : visible l i j = true) :
    visible l j j = true := by
  obtain ⟨x, _, h2, h3⟩ := visible_iff.mp h
  exact visible_iff.mpr ⟨x, h3, h2, h3⟩

/-- Visibility copies onto the left diagonal position. -/
lemma visible_diag_left {l : List α} {i j : Nat} (h : visible l i j = true) :
    visible l i i = true := by
  obtain ⟨x, h1, h2, _⟩ := visible_iff.mp h
  exact visible_iff.mpr ⟨x, h1, h2, h1⟩

/-- Runs are bounded by the number of processed outer steps. -/
lemma runLen_le_left (l : List α) : ∀ (i j : Nat), runLen l i j ≤ i + 1
  | 0, j => by
    rw [runLen]
    split <;> omega
  | i + 1, j => by
    rw [runLen]
    split
    · split
      · omega
      · have := runLen_le_left l i (j - 1)
        omega
    · omega

/-- Runs are bounded by their right endpoint. -/
lemma runLen_le_right (l : List α) : ∀ (i j : Nat), runLen l i j ≤ j + 1
  | 0, j => by
    rw [runLen]
    split <;> omega
  | i + 1, j => by
    rw [runLen]
    split
    · split
      · omega
      · have := runLen_le_right l i (j - 1)
        omega
    · omega

/-- Every run is dominated by the diagonal run at the smaller endpoint: a chain
of matches ending at `(i, j)` copies (value for value) onto a chain ending on
the diagonal. -/
lemma runLen_le_diag (l : List α) : ∀ (i j : Nat), runLen l i j ≤ runLen l (min i j) (min i j)
  | 0, j => by
    rw [runLen]
    split
    · rename_i hv
      have h0 : min 0 j = 0 := Nat.min_eq_left (Nat.zero_le j)
      rw [h0, runLen, if_pos (visible_diag_left hv)]
    · omega
  | i + 1, j => by
    rw [runLen]
    split
    · rename_i hv
      cases j with
      | zero =>
        have h0 : min (i + 1) 0 = 0 := Nat.min_eq_right (Nat.zero_le _)
        rw [if_pos rfl, h0, runLen, if_pos (visible_diag_right hv)]
      | succ j2 =>
        rw [if_neg (Nat.succ_ne_zero j2)]
        have hmin : min (i + 1) (j2 + 1) = min i j2 + 1 := Nat.succ_min_succ i j2
        have hvd : visible l (min i j2 + 1) (min i j2 + 1) = true := by
          obtain ⟨x, h1, h2, h3⟩ := visible_iff.mp hv
          have hsome : l.get? (min i j2 + 1) = some x := by
            rcases Nat.le_total i j2 with hle | hle
            · rw [Nat.min_eq_left hle]
              exact h1
            · rw [Nat.min_eq_right hle]
              exact h3
          exact visible_iff.mpr ⟨x, hsome, h2, hsome⟩
        rw [hmin, runLen, if_pos hvd, if_neg (Nat.succ_ne_zero _)]
        simp only [Nat.add_sub_cancel]
        have := runLen_le_diag l i j2
        omega
    · omega

/-- The fresh `j2len` map built by one inner loop: every processed position
holds its run value, every other key is clear. -/
lemma flmInner_fold_map (i : Nat) (o : Nat → Nat) :
    ∀ (js : List Nat) (st : (Nat × Nat × Nat) × (Nat → Nat)) (m : Nat),
    ((js.foldl (flmInner i o) st).2) m = if m ∈ js then prevLen o m + 1 else st.2 m
  | [], st, m => by simp
  | j :: js, st, m => by
    rw [List.foldl_cons, flmInner_fold_map i o js (flmInner i o st j) m]
    by_cases hm : m ∈ js
    · simp [hm]
    · by_cases hj : m = j
      · subst hj
        simp [hm, flmInner]
      · simp [hm, hj, flmInner]

/-- If no processed position beats the running best, the best is unchanged. -/
lemma flmInner_fold_best_skip (i : Nat) (o : Nat → Nat) :
    ∀ (js : List Nat) (st : (Nat × Nat × Nat) × (Nat → Nat)),
    (∀ j ∈ js, prevLen o j + 1 ≤ st.1.2.2) →
    ((js.foldl (flmInner i o) st).1) = st.1
  | [], _, _ => rfl
  | j :: js, st, h => by
    rw [List.foldl_cons]
    have hstep : (flmInner i o st j).1 = st.1 := by
      unfold flmInner
      rw [if_neg (not_lt.mpr (h j (List.mem_cons_self ..)))]
    rw [flmInner_fold_best_skip i o js (flmInner i o st j)
      (fun j2 hj2 => by rw [hstep]; exact h j2 (List.mem_cons_of_mem _ hj2)), hstep]

/-- A strictly better run updates the best match. -/
lemma flmInner_update (i : Nat) (o : Nat → Nat) (st : (Nat × Nat × Nat) × (Nat → Nat))
    (j : Nat) (h : st.1.2.2 < prevLen o j + 1) :
    (flmInner i o st j).1 =
      (i + 1 - (prevLen o j + 1), j + 1 - (prevLen o j + 1), prevLen o j + 1) := by
  unfold flmInner
  rw [if_pos h]

/-- On the self-comparison's full window, the window filter of the inner loop
keeps the whole position list. -/
lemma flmStep_js (l : List α) (i : Nat) (x : α)
    (st : (Nat × Nat × Nat) × (Nat → Nat)) (hx : l.get? i = some x) :
    flmStep l l 0 l.length st i = (b2j l x).foldl (flmInner i st.2) (st.1, fun _ => 0) := by
  have hfil : ((b2j l x).filter (fun j => decide (0 ≤ j) && decide (j < l.length)))
      = b2j l x := by
    apply List.filter_eq_self.mpr
    intro j hj
    have h2 := (mem_b2j.mp hj).2
    rw [List.get?_eq_getElem?] at h2
    have hlt : j < l.length := (List.getElem?_eq_some.mp h2).1
    simp [hlt]
  simp only [flmStep, hx]
  rw [hfil]

/-- Invariant step of the dynamic program on `(l, l)`: processing one more
outer index keeps the best match diagonal and the map dominated by `runLen`. -/
lemma flmStep_inv (l : List α) (i : Nat) (hi : i < l.length)
    (st : (Nat × Nat × Nat) × (Nat → Nat)) (d s : Nat)
    (hbest : st.1 = (d, d, s)) (hds : d + s ≤ i)
    (hM : ∀ u, u < i → runLen l u u ≤ s)
    (hmap : ∀ j, st.2 j ≤ if i = 0 then 0 else runLen l (i - 1) j)
    (hdiag : i ≠ 0 → st.2 (i - 1) = runLen l (i - 1) (i - 1)) :
    ∃ d2 s2, (flmStep l l 0 l.length st i).1 = (d2, d2, s2) ∧
      d2 + s2 ≤ i + 1 ∧
      (∀ u, u < i + 1 → runLen l u u ≤ s2) ∧
      (∀ j, (flmStep l l 0 l.length st i).2 j ≤ runLen l i j) ∧
      (flmStep l l 0 l.length st i).2 i = runLen l i i := by
  have hx : l.get? i = some (l.get ⟨i, hi⟩) := List.get?_eq_get hi
  set x := l.get ⟨i, hi⟩ with hxdef
  rw [flmStep_js l i x st hx]
  have hK : ∀ j ∈ b2j l x, prevLen st.2 j + 1 ≤ runLen l i j := by
    intro j hj
    have hvis : visible l i j = true := by
      unfold visible
      rw [hx]
      exact decide_eq_true hj
    cases i with
    | zero =>
      rw [runLen, if_pos hvis]
      have hple : prevLen st.2 j ≤ 0 := by
        unfold prevLen
        split
        · exact le_refl 0
        · have := hmap (j - 1)
          rw [if_pos rfl] at this
          exact this
      omega
    | succ i2 =>
      rw [runLen, if_pos hvis]
      cases j with
      | zero => simp [prevLen]
      | succ j2 =>
        rw [if_neg (Nat.succ_ne_zero j2)]
        have h1 := hmap j2
        rw [if_neg (Nat.succ_ne_zero i2)] at h1
        simp only [Nat.add_sub_cancel] at h1
        have h2 : prevLen st.2 (j2 + 1) = st.2 j2 := by
          unfold prevLen
          rw [if_neg (Nat.succ_ne_zero j2)]
          simp only [Nat.add_sub_cancel]
        simp only [Nat.add_sub_cancel]
        omega
  have hKlow : ∀ j ∈ b2j l x, j < i → prevLen st.2 j + 1 ≤ s := by
    intro j hj hlt
    have h1 := hK j hj
    have h2 := runLen_le_diag l i j
    rw [Nat.min_eq_right (le_of_lt hlt)] at h2
    exact le_trans h1 (le_trans h2 (hM j hlt))
  have hKhigh : ∀ j ∈ b2j l x, i < j → prevLen st.2 j + 1 ≤ runLen l i i := by
    intro j hj hlt
    have h1 := hK j hj
    have h2 := runLen_le_diag l i j
    rw [Nat.min_eq_left (le_of_lt hlt)] at h2
    exact le_trans h1 h2
  have hmapAll : ∀ m, (((b2j l x).foldl (flmInner i st.2) (st.1, fun _ => 0)).2) m =
      if m ∈ b2j l x then prevLen st.2 m + 1 else 0 :=
    fun m => flmInner_fold_map i st.2 (b2j l x) (st.1, fun _ => 0) m
  have hconc4 : ∀ j, (((b2j l x).foldl (flmInner i st.2) (st.1, fun _ => 0)).2) j ≤
      runLen l i j := by
    intro j
    rw [hmapAll j]
    split
    · rename_i hj
      exact hK j hj
    · exact Nat.zero_le _
  by_cases hiMem : i ∈ b2j l x
  · have hvii : visible l i i = true := by
      unfold visible
      rw [hx]
      exact decide_eq_true hiMem
    have hKi : prevLen st.2 i + 1 = runLen l i i := by
      cases i with
      | zero =>
        rw [runLen, if_pos hvii]
        simp [prevLen]
      | succ i2 =>
        rw [runLen, if_pos hvii, if_neg (Nat.succ_ne_zero i2)]
        have hd := hdiag (Nat.succ_ne_zero i2)
        simp only [Nat.add_sub_cancel] at hd ⊢
        unfold prevLen
        rw [if_neg (Nat.succ_ne_zero i2)]
        simp only [Nat.add_sub_cancel]
        omega
    have hconc5 : (((b2j l x).foldl (flmInner i st.2) (st.1, fun _ => 0)).2) i =
        runLen l i i := by
      rw [hmapAll i, if_pos hiMem, hKi]
    by_cases hcase : prevLen st.2 i + 1 ≤ s
    · -- no position beats the running best
      have hall : ∀ j ∈ b2j l x, prevLen st.2 j + 1 ≤ ((st.1, fun _ : Nat => 0) :
          (Nat × Nat × Nat) × (Nat → Nat)).1.2.2 := by
        intro j hj
        show prevLen st.2 j + 1 ≤ st.1.2.2
        rw [hbest]
        rcases Nat.lt_trichotomy j i with h | h | h
        · exact hKlow j hj h
        · subst h
          exact hcase
        · exact le_trans (hKhigh j hj h) (le_trans (le_of_eq hKi.symm) hcase)
      refine ⟨d, s, ?_, by omega, ?_, hconc4, hconc5⟩
      · rw [flmInner_fold_best_skip i st.2 (b2j l x) _ hall]
        exact hbest
      · intro u hu
        rcases Nat.lt_or_ge u i with h | h
        · exact hM u h
        · have hui : u = i := by omega
          subst hui
          rw [← hKi]
          exact hcase
    · -- the diagonal run strictly improves the best
      push_neg at hcase
      obtain ⟨pre, post, hsplit⟩ := List.append_of_mem hiMem
      have hsort := b2j_sorted l x
      rw [hsplit] at hsort
      have hpre : ∀ j ∈ pre, j < i := by
        intro j hj
        exact (List.pairwise_append.mp hsort).2.2 j hj i (List.mem_cons_self ..)
      have hpost : ∀ j ∈ post, i < j := by
        intro j hj
        exact (List.pairwise_cons.mp (List.pairwise_append.mp hsort).2.1).1 j hj
      have hmemPre : ∀ j ∈ pre, j ∈ b2j l x := by
        intro j hj
        rw [hsplit]
        exact List.mem_append_left _ hj
      have hmemPost : ∀ j ∈ post, j ∈ b2j l x := by
        intro j hj
        rw [hsplit]
        exact List.mem_append_right _ (List.mem_cons_of_mem _ hj)
      have hbest2 : (((b2j l x).foldl (flmInner i st.2) (st.1, fun _ => 0)).1) =
          (i + 1 - (prevLen st.2 i + 1), i + 1 - (prevLen st.2 i + 1),
            prevLen st.2 i + 1) := by
        rw [hsplit, List.foldl_append, List.foldl_cons]
        have hpreSkip : ((pre.foldl (flmInner i st.2) (st.1, fun _ => 0)).1) = st.1 := by
          apply flmInner_fold_best_skip
          intro j hj
          show prevLen st.2 j + 1 ≤ st.1.2.2
          rw [hbest]
          exact hKlow j (hmemPre j hj) (hpre j hj)
        have hmid : (flmInner i st.2 (pre.foldl (flmInner i st.2) (st.1, fun _ => 0)) i).1 =
            (i + 1 - (prevLen st.2 i + 1), i + 1 - (prevLen st.2 i + 1),
              prevLen st.2 i + 1) := by
          apply flmInner_update
          rw [hpreSkip, hbest]
          exact hcase
        rw [flmInner_fold_best_skip i st.2 post _ ?_, hmid]
        intro j hj
        rw [hmid]
        show prevLen st.2 j + 1 ≤ prevLen st.2 i + 1
        have := hKhigh j (hmemPost j hj) (hpost j hj)
        omega
      have hKlen : prevLen st.2 i + 1 ≤ i + 1 := by
        have := runLen_le_left l i i
        omega
      refine ⟨i + 1 - (prevLen st.2 i + 1), prevLen st.2 i + 1, hbest2, by omega, ?_,
        hconc4, hconc5⟩
      intro u hu
      rcases Nat.lt_or_ge u i with h | h
      · exact le_trans (hM u h) (by omega)
      · have hui : u = i := by omega
        subst hui
        omega
  · -- the element at `i` is popular: the position list is empty
    have hjs : b2j l x = [] := by
      cases hb : b2j l x with
      | nil => rfl
      | cons j js =>
        exfalso
        have hj : j ∈ b2j l x := by
          rw [hb]
          exact List.mem_cons_self ..
        have hvis : visible l i j = true := by
          unfold visible
          rw [hx]
          exact decide_eq_true hj
        have hvii := visible_diag_left hvis
        unfold visible at hvii
        rw [hx] at hvii
        exact hiMem (of_decide_eq_true hvii)
    have hrii : runLen l i i = 0 := by
      have hnv : ¬visible l i i = true := by
        intro hvii
        unfold visible at hvii
        rw [hx] at hvii
        exact hiMem (of_decide_eq_true hvii)
      cases i with
      | zero => rw [runLen, if_neg hnv]
      | succ i2 => rw [runLen, if_neg hnv]
    rw [hjs]
    refine ⟨d, s, hbest, by omega, ?_, fun j => Nat.zero_le _, by rw [hrii]; rfl⟩
    intro u hu
    rcases Nat.lt_or_ge u i with h | h
    · exact hM u h
    · have hui : u = i := by omega
      subst hui
      rw [hrii]
      exact Nat.zero_le _

lemma flmLoopN_succ (l : List α) (m : Nat) :
    flmLoopN l (m + 1) = flmStep l l 0 l.length (flmLoopN l m) m := by
  unfold flmLoopN
  rw [List.range_succ, List.foldl_append, List.foldl_cons, List.foldl_nil]

/-- Invariant of the whole DP loop on `(l, l)`: the best match stays diagonal
and within the processed prefix. -/
lemma flmLoopN_inv (l : List α) : ∀ (m : Nat), m ≤ l.length →
    ∃ d s, (flmLoopN l m).1 = (d, d, s) ∧ d + s ≤ m ∧
      (∀ u, u < m → runLen l u u ≤ s) ∧
      (∀ j, (flmLoopN l m).2 j ≤ if m = 0 then 0 else runLen l (m - 1) j) ∧
      (m ≠ 0 → (flmLoopN l m).2 (m - 1) = runLen l (m - 1) (m - 1))
  | 0, _ => by
    refine ⟨0, 0, rfl, le_refl 0, fun u hu => absurd hu (Nat.not_lt_zero u), ?_,
      fun h => absurd rfl h⟩
    intro j
    simp [flmLoopN]
  | m + 1, hm => by
    obtain ⟨d, s, h1, h2, h3, h4, h5⟩ := flmLoopN_inv l m (by omega)
    obtain ⟨d2, s2, g1, g2, g3, g4, g5⟩ :=
      flmStep_inv l m (by omega) (flmLoopN l m) d s h1 h2 h3 h4 h5
    rw [flmLoopN_succ]
    refine ⟨d2, s2, g1, g2, g3, ?_, ?_⟩
    · intro j
      rw [if_neg (Nat.succ_ne_zero m)]
      simpa using g4 j
    · intro _
      simpa using g5

/-- The DP phase of the self-comparison ends with a diagonal best match. -/
lemma flmLoop_self (l : List α) :
    ∃ d s, (flmLoop l l 0 l.length 0 l.length).1 = (d, d, s) ∧ d + s ≤ l.length := by
  obtain ⟨d, s, h1, h2, -, -, -⟩ := flmLoopN_inv l l.length (le_refl _)
  refine ⟨d, s, ?_, h2⟩
  unfold flmLoop
  rw [Nat.sub_zero, ← List.range_eq_range']
  exact h1

/-- Backward extension of a diagonal best on `(l, l)` reaches the left edge. -/
lemma extendBack_diag (l : List α) : ∀ (fuel d s : Nat), d ≤ fuel →
    extendBack l l 0 0 fuel (d, d, s) = (0, 0, s + d)
  | 0, d, s, h => by
    have hd : d = 0 := by omega
    subst hd
    rfl
  | fuel + 1, d, s, h => by
    rw [extendBack]
    by_cases hd : 0 < d
    · rw [if_pos ⟨hd, hd, rfl⟩, extendBack_diag l fuel (d - 1) (s + 1) (by omega)]
      have harith : s + 1 + (d - 1) = s + d := by omega
      rw [harith]
    · have hd0 : d = 0 := by omega
      subst hd0
      rw [if_neg (fun hcon => absurd hcon.1 (by omega))]
      rfl

/-- Forward extension of a left-anchored diagonal best on `(l, l)` reaches the
right edge. -/
lemma extendFwd_diag (l : List α) : ∀ (fuel s : Nat), l.length ≤ s + fuel →
    s ≤ l.length → extendFwd l l l.length l.length fuel (0, 0, s) = (0, 0, l.length)
  | 0, s, h1, h2 => by
    have hs : s = l.length := by omega
    subst hs
    rfl
  | fuel + 1, s, h1, h2 => by
    rw [extendFwd]
    by_cases hs : s < l.length
    · rw [if_pos ⟨by omega, by omega, rfl⟩]
      exact extendFwd_diag l fuel (s + 1) (by omega) (by omega)
    · have hseq : s = l.length := by omega
      subst hseq
      rw [if_neg (fun hcon => absurd hcon.1 (by omega))]

/-- `find_longest_match` on two equal sequences returns the whole window: the
DP best is diagonal, and the extension loops (whose element comparisons always
succeed on the diagonal) grow it to the full length. -/
lemma findLongestMatch_self (l : List α) :
    findLongestMatch l l 0 l.length 0 l.length = (0, 0, l.length) := by
  obtain ⟨d, s, hb, hds⟩ := flmLoop_self l
  show extendFwd l l l.length l.length _ _ = _
  rw [hb]
  show extendFwd l l l.length l.length
    (l.length - ((extendBack l l 0 0 d (d, d, s)).1 +
      (extendBack l l 0 0 d (d, d, s)).2.2))
    (extendBack l l 0 0 d (d, d, s)) = (0, 0, l.length)
  rw [extendBack_diag l d d s (le_refl d)]
  show extendFwd l l l.length l.length (l.length - (0 + (s + d))) (0, 0, s + d) = _
  rw [Nat.zero_add]
  exact extendFwd_diag l (l.length - (s + d)) (s + d) (by omega) (by omega)

/-- The matching blocks of two equal sequences: the single full block (none
when the sequences are empty). -/
lemma mblocksF_self (l : List α) (fuel : Nat) :
    mblocksF l l (fuel + 1) 0 l.length 0 l.length =
      if l.length = 0 then [] else [(0, 0, l.length)] := by
  have hflm := findLongestMatch_self l
  by_cases h : l.length = 0
  · rw [h] at hflm
    simp [mblocksF, hflm, h]
  · simp [mblocksF, hflm, h]

/-- `get_opcodes` of two equal sequences: one `equal` opcode over the whole
range (none when the sequences are empty). -/
lemma smOpcodes_self (l : List α) :
    smOpcodes l l =
      if l.length = 0 then [] else [⟨Tag.equal, 0, l.length, 0, l.length⟩] := by
  unfold smOpcodes
  rw [mblocksF_self]
  by_cases h : l.length = 0
  · rw [if_pos h, if_pos h, h]
    rfl
  · rw [if_neg h, if_neg h]
    have hsort : sortBlocks [(0, 0, l.length)] = [(0, 0, l.length)] := rfl
    rw [hsort]
    simp [nonAdjacent, opcodesOfBlocks, h]

end SelfMatch

/-- C7: the inferrer applied to two identical tables returns the empty spec
(`drop_rows = []`, `overwrite_cells = []`) — the rendered line sequences are
equal, so the matcher yields a single `equal` opcode and nothing accumulates —
and the empty spec is the identity transform for the applier. -/
theorem c7_identity_spec (S : Table) :
    generate_transform_spec_delete_overwrite S S =
        { drop_rows := [], overwrite_cells := [] } ∧
      apply_transform_spec S { drop_rows := [], overwrite_cells := [] } = S := by
  constructor
  · simp only [generate_transform_spec_delete_overwrite]
    rw [smOpcodes_self]
    by_cases h : (csvLines S).tail.length = 0
    · rw [if_pos h]
      rfl
    · rw [if_neg h]
      rfl
  · rfl

/-! ### C10: legacy dict-of-lists normalization in the task-instance loader -/

/-- C10: the loader normalizes a legacy dict-of-lists into a list of
`TableDeltaSpec` values, one per index: an empty dict yields the empty list;
a dict whose lists have unequal lengths raises an error; a dict with equal
lengths `n` yields exactly `n` specs, the `i`-th built from every key's `i`-th
element through the pydantic constructor. -/
theorem c10_legacy_normalization :
    (normalizeRecoveredSpecs (.dict []) = .ok []) ∧
      (∀ (d : List (String × List SpecKwarg)) (kv : String × List SpecKwarg),
        kv ∈ d → kv.2.length ≠ (d.headD ("", [])).2.length →
        ∃ msg, normalizeRecoveredSpecs (.dict d) = .error msg) ∧
      (∀ (d : List (String × List SpecKwarg)),
        (∀ kv ∈ d, kv.2.length = (d.headD ("", [])).2.length) →
        normalizeRecoveredSpecs (.dict d) =
          .ok ((List.range (d.headD ("", [])).2.length).map (fun i =>
            tableDeltaSpecOfKwargs (d.map (fun kv => (kv.1, kv.2.getD i (.rows []))))))) := by
  refine ⟨rfl, ?_, ?_⟩
  · intro d kv hkv hne
    cases d with
    | nil => exact absurd hkv (List.not_mem_nil kv)
    | cons kv0 rest =>
      have hne2 : kv.2.length ≠ kv0.2.length := hne
      have hex : ∃ x ∈ kv0 :: rest, (fun kv => kv.2.length != kv0.2.length) x = true :=
        ⟨kv, hkv, by simpa using hne2⟩
      have hsome := List.find?_isSome.mpr hex
      obtain ⟨kvf, hf⟩ := Option.isSome_iff_exists.mp hsome
      refine ⟨"All lists must have the same length. Found " ++ toString kvf.2.length ++
        " for key " ++ kvf.1 ++ " but expected " ++ toString kv0.2.length, ?_⟩
      simp only [normalizeRecoveredSpecs, convert_dict_of_lists_to_list_of_dicts,
        List.head?_cons, hf]
      rfl
  · intro d hall
    cases d with
    | nil => rfl
    | cons kv0 rest =>
      have hfind : (kv0 :: rest).find? (fun kv => kv.2.length != kv0.2.length) = none :=
        List.find?_eq_none.mpr (fun kv hkv => by simpa using hall kv hkv)
      simp only [normalizeRecoveredSpecs, convert_dict_of_lists_to_list_of_dicts,
        List.head?_cons, hfind, Except.map, List.map_map]
      rfl

/-- C10 witness: a concrete legacy dict with unequal list lengths is rejected. -/
theorem c10_legacy_normalization_witness :
    ∃ msg, normalizeRecoveredSpecs
      (.dict [("drop_rows", [SpecKwarg.rows [1]]), ("overwrite_cells", [])]) =
        .error msg :=
  c10_legacy_normalization.2.1
    [("drop_rows", [SpecKwarg.rows [1]]), ("overwrite_cells", [])]
    ("overwrite_cells", []) (by decide) (by decide)

end Radar
